import Mathlib

/-!
MarketStream-ETL — verification of the core components

Shallow embedding of the MarketStream ETL pipeline (C++20) in Lean 4:
the `Trade` record model, the `TradeValidator` rule set, the
`TechnicalIndicators` engine (SMA / RSI / VWAP), the `CsvParser`
byte-level record parser, the `SPSCQueue` ring buffer, and the
three-phase parallel database load (`prepare_for_parallel_load`,
`copy_chunk`, `finalize_parallel_load`) with its chunk partitioning.

Machine integers are modelled as `Nat`/`Int` (the programs never
overflow in the verified scenarios; where `std::from_chars` range
failures matter they are modelled explicitly).  `double` fields are
modelled as `ℚ`: every comparison the code performs (`≤ 0`,
`≥ 1'000'000`, `== 0.0`) is exact on the finite doubles the pipeline
produces, so the rational model is faithful on all finite values.
The mutable database tables are modelled as lists of rows, transitions
as explicit state-passing functions.
-/

/-- The `Trade` struct of `src/model/Trade.hpp`: one trade execution.
Fields are listed in the C++ declaration order, which matters for the
defaulted `operator<=>` (it compares members in declaration order). -/
structure Trade where
  trade_id : Nat
  order_id : Nat
  timestamp : Int
  price : ℚ
  volume : Nat
  symbol : String
  exchange : String
  side : Char
  type : Char
  is_pro : Bool
deriving DecidableEq, Repr

instance : Inhabited Trade :=
  ⟨{ trade_id := 0, order_id := 0, timestamp := 0, price := 0, volume := 0,
     symbol := "", exchange := "", side := 'N', type := 'M', is_pro := false }⟩

/-- The `ValidationResult` struct of `TradeValidator.hpp`. -/
structure ValidationResult where
  valid : Bool
  reason : String
deriving DecidableEq, Repr

def ValidationResult.ok : ValidationResult := ⟨true, ""⟩

def ValidationResult.fail (reason : String) : ValidationResult := ⟨false, reason⟩

/-- One character of the CTRE pattern `[A-Z]`. -/
def isUpperAZ (c : Char) : Bool := 'A' ≤ c && c ≤ 'Z'

/-- The match `ctre::match<"[A-Z]{1,10}">(s)`: the whole string is 1 to 10
uppercase letters. -/
def symbolMatches (s : String) : Bool :=
  decide (1 ≤ s.data.length) && decide (s.data.length ≤ 10) && s.data.all isUpperAZ

/-- Embeds `TradeValidator::validate`: the six checks in source order,
returning on the first failure. -/
def validate (t : Trade) : ValidationResult :=
  if ¬ (symbolMatches t.symbol = true) then
    ValidationResult.fail ("Invalid symbol: " ++ t.symbol ++ " - must be 1-10 uppercase letters")
  else if t.price ≤ 0 ∨ 1000000 ≤ t.price then
    ValidationResult.fail "Invalid price - must be between 0 and 1,000,000"
  else if t.volume = 0 then
    ValidationResult.fail "Invalid volume: 0 - must be > 0"
  else if t.side ≠ 'B' ∧ t.side ≠ 'S' ∧ t.side ≠ 'N' then
    ValidationResult.fail "Invalid side - must be B, S, or N"
  else if t.type ≠ 'M' ∧ t.type ≠ 'L' ∧ t.type ≠ 'I' then
    ValidationResult.fail "Invalid type - must be M, L, or I"
  else if t.timestamp ≤ 0 then
    ValidationResult.fail "Invalid timestamp - must be positive nanoseconds since epoch"
  else ValidationResult.ok

/-- Embeds `TradeValidator::validate_batch`: keep exactly the passing records,
in order. -/
def validate_batch (trades : List Trade) : List Trade :=
  trades.filter (fun t => (validate t).valid)

/-!
Chunk partitioning of `ParallelLoader::run`

The loop in `TradeValidator.hpp` (ParallelLoader section) computes
`chunk_size = total / N`, `remainder = total % N`, and hands the first
`remainder` workers `chunk_size + 1` records, walking a running
`offset`.  `spanList cs r k i off` produces the spans for workers
`i, i+1, …, i+k-1` starting at offset `off`.
-/

def spanList (cs r : Nat) : Nat → Nat → Nat → List (Nat × Nat)
  | 0, _, _ => []
  | k + 1, i, off =>
    let sz := cs + (if i < r then 1 else 0)
    (off, sz) :: spanList cs r k (i + 1) (off + sz)

/-- The `(offset, size)` spans computed by `ParallelLoader::run` for
input length `n` and worker count `N`. -/
def chunkSpans (n N : Nat) : List (Nat × Nat) :=
  spanList (n / N) (n % N) N 0 0

/-- The spans are contiguous starting from a given offset: each span
begins where the previous one ended. -/
def contigFrom : Nat → List (Nat × Nat) → Prop
  | _, [] => True
  | off, (o, s) :: rest => o = off ∧ contigFrom (off + s) rest

/-- Total number of records covered by a span list. -/
def sumSizes (l : List (Nat × Nat)) : Nat := (l.map Prod.snd).sum

theorem spanList_length (cs r : Nat) : ∀ k i off, (spanList cs r k i off).length = k := by
  intro k
  induction k with
  | zero => intro i off; rfl
  | succ k ih => intro i off; simp [spanList, ih]

theorem spanList_contig (cs r : Nat) : ∀ k i off, contigFrom off (spanList cs r k i off) := by
  intro k
  induction k with
  | zero => intro i off; trivial
  | succ k ih => intro i off; exact ⟨rfl, ih (i + 1) _⟩

theorem spanList_sizes (cs r : Nat) :
    ∀ k i off, (spanList cs r k i off).map Prod.snd =
      (List.range k).map (fun j => cs + (if i + j < r then 1 else 0)) := by
  intro k
  induction k with
  | zero => intro i off; rfl
  | succ k ih =>
    intro i off
    simp only [spanList, List.map_cons, List.range_succ_eq_map, List.map_map]
    refine List.cons_eq_cons.mpr ⟨by simp, ?_⟩
    rw [ih (i + 1)]
    apply List.map_congr_left
    intro j _
    have h : i + 1 + j = i + Nat.succ j := by omega
    rw [Function.comp_apply, h]

theorem spanList_sum (cs r : Nat) :
    ∀ k i off, sumSizes (spanList cs r k i off) =
      k * cs + ((min (i + k) r) - min i r) := by
  intro k
  induction k with
  | zero => intro i off; simp [sumSizes, spanList]
  | succ k ih =>
    intro i off
    simp only [spanList, sumSizes, List.map_cons, List.sum_cons]
    have hrec := ih (i + 1) (off + (cs + (if i < r then 1 else 0)))
    simp only [sumSizes] at hrec
    rw [hrec, Nat.succ_mul]
    by_cases h : i < r
    · rw [if_pos h]; omega
    · rw [if_neg h]; omega

theorem chunkSpans_length (n N : Nat) : (chunkSpans n N).length = N :=
  spanList_length _ _ N 0 0

theorem chunkSpans_contig (n N : Nat) : contigFrom 0 (chunkSpans n N) :=
  spanList_contig _ _ N 0 0

theorem chunkSpans_sizes (n N : Nat) :
    (chunkSpans n N).map Prod.snd =
      (List.range N).map (fun j => n / N + (if j < n % N then 1 else 0)) := by
  have := spanList_sizes (n / N) (n % N) N 0 0
  simpa using this

theorem chunkSpans_sum (n N : Nat) (hN : 1 ≤ N) : sumSizes (chunkSpans n N) = n := by
  have h := spanList_sum (n / N) (n % N) N 0 0
  have hlt : n % N < N := Nat.mod_lt _ (by omega)
  have hmin : min (0 + N) (n % N) = n % N := by omega
  rw [chunkSpans, h, hmin]
  have := Nat.div_add_mod n N
  omega

/-- C2: partitioning totality.  For any worker count `N ≥ 1` and input
length `n`, the spans are `N` in number, contiguous from offset 0
(hence non-overlapping and covering `[0, n)` exactly since their sizes
sum to `n`), the `j`-th span having size `n/N + 1` for `j < n % N` and
`n/N` otherwise; and the concrete instance `n = 1000003`, `N = 4`
yields sizes `[250001, 250001, 250001, 250000]` at offsets
`[0, 250001, 500002, 750003]`. -/
theorem chunkSpans_partition :
    (∀ n N : Nat, 1 ≤ N →
      (chunkSpans n N).length = N ∧
      contigFrom 0 (chunkSpans n N) ∧
      sumSizes (chunkSpans n N) = n ∧
      (chunkSpans n N).map Prod.snd =
        (List.range N).map (fun j => n / N + (if j < n % N then 1 else 0))) ∧
    chunkSpans 1000003 4 =
      [(0, 250001), (250001, 250001), (500002, 250001), (750003, 250000)] := by
  constructor
  · intro n N hN
    exact ⟨chunkSpans_length n N, chunkSpans_contig n N, chunkSpans_sum n N hN,
      chunkSpans_sizes n N⟩
  · decide

/-- Witness for `chunkSpans_partition` at the concrete input `n = 7`,
`N = 3`. -/
theorem chunkSpans_partition_witness :
    (chunkSpans 7 3).length = 3 ∧
    contigFrom 0 (chunkSpans 7 3) ∧
    sumSizes (chunkSpans 7 3) = 7 ∧
    (chunkSpans 7 3).map Prod.snd =
      (List.range 3).map (fun j => 7 / 3 + (if j < 7 % 3 then 1 else 0)) :=
  chunkSpans_partition.1 7 3 (by decide)

theorem fail_valid (r : String) : (ValidationResult.fail r).valid = false := rfl

theorem ok_valid : ValidationResult.ok.valid = true := rfl

/-- The function `validate` passes exactly when each of the six checks, as written
in the source, fails to fire. -/
theorem validate_valid_iff_checks (t : Trade) :
    (validate t).valid = true ↔
      (symbolMatches t.symbol = true ∧ ¬(t.price ≤ 0 ∨ 1000000 ≤ t.price) ∧
       t.volume ≠ 0 ∧ ¬(t.side ≠ 'B' ∧ t.side ≠ 'S' ∧ t.side ≠ 'N') ∧
       ¬(t.type ≠ 'M' ∧ t.type ≠ 'L' ∧ t.type ≠ 'I') ∧ ¬(t.timestamp ≤ 0)) := by
  unfold validate
  split_ifs with h1 h2 h3 h4 h5 h6 <;>
    simp_all [fail_valid, ok_valid]

/-- C3: validator soundness and completeness.  `validate t` passes iff
all six field invariants hold: `0 < price < 1'000'000`, `volume > 0`,
`timestamp > 0`, the symbol is 1–10 uppercase letters, `side ∈
{B,S,N}` and `type ∈ {M,L,I}`. -/
theorem validate_ok_iff (t : Trade) :
    (validate t).valid = true ↔
      (0 < t.price ∧ t.price < 1000000 ∧ 0 < t.volume ∧ 0 < t.timestamp ∧
       (1 ≤ t.symbol.data.length ∧ t.symbol.data.length ≤ 10 ∧
        ∀ c ∈ t.symbol.data, 'A' ≤ c ∧ c ≤ 'Z') ∧
       (t.side = 'B' ∨ t.side = 'S' ∨ t.side = 'N') ∧
       (t.type = 'M' ∨ t.type = 'L' ∨ t.type = 'I')) := by
  have hsym : symbolMatches t.symbol = true ↔
      (1 ≤ t.symbol.data.length ∧ t.symbol.data.length ≤ 10 ∧
       ∀ c ∈ t.symbol.data, 'A' ≤ c ∧ c ≤ 'Z') := by
    simp [symbolMatches, List.all_eq_true, isUpperAZ, and_assoc]
  rw [validate_valid_iff_checks, hsym]
  constructor
  · rintro ⟨hs, hp, hv, hside, hty, hts⟩
    push_neg at hp hside hty hts
    refine ⟨hp.1, hp.2, by omega, hts, hs, ?_, ?_⟩
    · by_cases hb : t.side = 'B'
      · exact Or.inl hb
      · by_cases hs2 : t.side = 'S'
        · exact Or.inr (Or.inl hs2)
        · exact Or.inr (Or.inr (hside hb hs2))
    · by_cases hm : t.type = 'M'
      · exact Or.inl hm
      · by_cases hl : t.type = 'L'
        · exact Or.inr (Or.inl hl)
        · exact Or.inr (Or.inr (hty hm hl))
  · rintro ⟨hp1, hp2, hv, hts, hs, hside, hty⟩
    refine ⟨hs, ?_, by omega, ?_, ?_, by omega⟩
    · push_neg
      exact ⟨hp1, hp2⟩
    · rintro ⟨hb, hsd, hn⟩
      rcases hside with h | h | h <;> simp [h] at hb hsd hn
    · rintro ⟨hm, hl, hi⟩
      rcases hty with h | h | h <;> simp [h] at hm hl hi

/-!
Three-phase parallel load (`DatabaseLoader.cpp`)

The `trades` table is modelled as the list of its rows.  `TRUNCATE`
empties it; a COPY stream appends the streamed chunk; rebuilding the
primary key and index does not change the rows.  Worker concurrency is
modelled by running the per-chunk COPY transactions in an arbitrary
order (any permutation of the chunk list): PostgreSQL MVCC serialises
the independent append-only transactions, so the final row multiset is
the union of the committed chunks regardless of interleaving.
-/

/-- Embeds `DatabaseLoader::prepare_for_parallel_load`: `TRUNCATE TABLE trades`
(the dropped constraint and index are not part of the row state). -/
def prepare_for_parallel_load (_tbl : List Trade) : List Trade := []

/-- Embeds `DatabaseLoader::copy_chunk`: stream every record of the chunk into
the table (early return on an empty chunk). -/
def copy_chunk (tbl chunk : List Trade) : List Trade :=
  if chunk.isEmpty then tbl else tbl ++ chunk

/-- Embeds `DatabaseLoader::finalize_parallel_load`: `ADD PRIMARY KEY` and
`CREATE INDEX` leave the rows unchanged. -/
def finalize_parallel_load (tbl : List Trade) : List Trade := tbl

/-- The spans of `ParallelLoader::run` materialised as sublists of the
input (`std::span(trades.data() + offset, size)`). -/
def spanChunks (S : List Trade) (N : Nat) : List (List Trade) :=
  (chunkSpans S.length N).map (fun p => (S.drop p.1).take p.2)

theorem copy_chunk_eq (tbl chunk : List Trade) : copy_chunk tbl chunk = tbl ++ chunk := by
  unfold copy_chunk
  split
  · next h => simp [List.isEmpty_iff.mp h]
  · rfl

theorem foldl_copy_chunk (ws : List (List Trade)) :
    ∀ tbl, ws.foldl copy_chunk tbl = tbl ++ ws.flatten := by
  induction ws with
  | nil => intro tbl; simp
  | cons c ws ih =>
    intro tbl
    simp [List.foldl_cons, copy_chunk_eq, ih, List.flatten_cons, List.append_assoc]

theorem flatten_span_take (S : List Trade) :
    ∀ (spans : List (Nat × Nat)) (off : Nat), contigFrom off spans →
      off + sumSizes spans = S.length →
      (spans.map (fun p => (S.drop p.1).take p.2)).flatten = S.drop off := by
  intro spans
  induction spans with
  | nil =>
    intro off _ hsum
    simp only [sumSizes, List.map_nil, List.sum_nil, Nat.add_zero] at hsum
    simp [List.drop_eq_nil_of_le, hsum.ge]
  | cons p rest ih =>
    intro off hc hsum
    obtain ⟨ho, hc'⟩ := hc
    simp only [sumSizes, List.map_cons, List.sum_cons] at hsum
    have hsum' : off + p.2 + sumSizes rest = S.length := by
      simp only [sumSizes]; omega
    simp only [List.map_cons, List.flatten_cons, ho, ih (off + p.2) hc' hsum']
    have hdd : S.drop (off + p.2) = (S.drop off).drop p.2 := by
      rw [List.drop_drop, Nat.add_comm]
    rw [hdd, List.take_append_drop]

theorem flatten_spanChunks (S : List Trade) (N : Nat) (hN : 1 ≤ N) :
    (spanChunks S N).flatten = S := by
  have h := flatten_span_take S (chunkSpans S.length N) 0 (chunkSpans_contig _ _)
    (by simpa using chunkSpans_sum S.length N hN)
  simpa [spanChunks] using h

theorem perm_flatten {α : Type} {l₁ l₂ : List (List α)} (h : l₁.Perm l₂) :
    l₁.flatten.Perm l₂.flatten := by
  induction h with
  | nil => exact List.Perm.refl _
  | cons x _ ih => simpa using ih.append_left x
  | swap x y l =>
    simp only [List.flatten_cons]
    rw [← List.append_assoc, ← List.append_assoc]
    exact (List.perm_append_comm).append_right _
  | trans _ _ ih1 ih2 => exact ih1.trans ih2

/-- C1: parallel load equivalence.  Starting from any prior table
contents, `prepare_for_parallel_load` empties the table, the `N`
workers stream the partition chunks (in any commit order `ws`, i.e.
any permutation of the chunk list — each record of `S` streamed by
exactly one worker), and `finalize_parallel_load` rebuilds constraints
without touching rows; the resulting table is a permutation of `S`,
i.e. holds exactly the multiset of records of `S`. -/
theorem parallel_load_equivalence (S tbl : List Trade) (N : Nat)
    (ws : List (List Trade)) (hN : 1 ≤ N) (hws : ws.Perm (spanChunks S N)) :
    (finalize_parallel_load (ws.foldl copy_chunk (prepare_for_parallel_load tbl))).Perm S := by
  unfold finalize_parallel_load prepare_for_parallel_load
  rw [foldl_copy_chunk, List.nil_append]
  exact (perm_flatten hws).trans (by rw [flatten_spanChunks S N hN])

/-- A small concrete trade used by witnesses. -/
def sampleTrade (id : Nat) (sym : String) : Trade :=
  { trade_id := id, order_id := id + 100, timestamp := 1698208500000000001,
    price := 2456, volume := 100, symbol := sym, exchange := "NSE",
    side := 'B', type := 'L', is_pro := false }

/-- Witness for `parallel_load_equivalence`: three records, two
workers, committing in reverse order. -/
theorem parallel_load_equivalence_witness :
    (finalize_parallel_load
      (((spanChunks [sampleTrade 1 "A", sampleTrade 2 "B", sampleTrade 3 "C"] 2).reverse).foldl
        copy_chunk
        (prepare_for_parallel_load [sampleTrade 9 "Z"]))).Perm
      [sampleTrade 1 "A", sampleTrade 2 "B", sampleTrade 3 "C"] :=
  parallel_load_equivalence [sampleTrade 1 "A", sampleTrade 2 "B", sampleTrade 3 "C"]
    [sampleTrade 9 "Z"] 2 _ (by decide) (List.reverse_perm _)

/-!
Indicator persistence (`DatabaseLoader::save_indicators`)
-/

/-- The `IndicatorResult` struct of `TechnicalIndicators.hpp`. -/
structure IndicatorResult where
  symbol : String
  sma : ℚ
  rsi : ℚ
  vwap : ℚ
  period : Int
deriving DecidableEq, Repr

/-- One persisted row of the `technical_indicators` table (the
`BIGSERIAL` surrogate key is the row's position in the list). -/
structure IndicatorRow where
  symbol : String
  computed_at : Int
  sma : ℚ
  rsi : ℚ
  vwap : ℚ
  period : Int
deriving DecidableEq, Repr

/-- Embeds `DatabaseLoader::save_indicators`: one transaction of
parameterized single-row inserts, all stamped with the single `now_ns`
timestamp captured once at the start of the call (modelled as the
`now_ns` argument).  Early return on an empty input. -/
def save_indicators (table : List IndicatorRow) (indicators : List IndicatorResult)
    (now_ns : Int) : List IndicatorRow :=
  if indicators.isEmpty then table
  else table ++ indicators.map (fun ind =>
    { symbol := ind.symbol, computed_at := now_ns, sma := ind.sma, rsi := ind.rsi,
      vwap := ind.vwap, period := ind.period })

/-- C8: `save_indicators` with `N` rows appends exactly `N` new rows,
every new row carries the single `computed_at` timestamp captured at
the start of the call, and every pre-existing row is left unchanged
(append-only). -/
theorem save_indicators_append_only (table : List IndicatorRow)
    (indicators : List IndicatorResult) (now_ns : Int) :
    (save_indicators table indicators now_ns).length
        = table.length + indicators.length ∧
    (save_indicators table indicators now_ns).take table.length = table ∧
    ∀ r ∈ (save_indicators table indicators now_ns).drop table.length,
      r.computed_at = now_ns := by
  unfold save_indicators
  split
  · next h =>
    have : indicators = [] := List.isEmpty_iff.mp h
    subst this
    simp
  · refine ⟨by simp, ?_, ?_⟩
    · rw [List.take_left]
    · rw [List.drop_left]
      intro r hr
      obtain ⟨ind, _, rfl⟩ := List.mem_map.mp hr
      rfl

/-!
Record ordering (`Trade::operator<=>` in `src/main.cpp` / `Trade.hpp`)

The source declares `auto operator<=>(const Trade &) const = default;`.
A defaulted three-way comparison in C++ compares the non-static data
members lexicographically in declaration order: `trade_id, order_id,
timestamp, price, volume, symbol, exchange, side, type, is_pro`.
-/

/-- The defaulted `Trade::operator<=>`: member-wise lexicographic
comparison in declaration order. -/
def tradeCmp (a b : Trade) : Ordering :=
  (cmp a.trade_id b.trade_id).then <|
  (cmp a.order_id b.order_id).then <|
  (cmp a.timestamp b.timestamp).then <|
  (cmp a.price b.price).then <|
  (cmp a.volume b.volume).then <|
  (cmp a.symbol b.symbol).then <|
  (cmp a.exchange b.exchange).then <|
  (cmp a.side b.side).then <|
  (cmp a.type b.type).then <|
  (cmp a.is_pro b.is_pro)

/-- The ordering documented by the source comment ("Sorts primarily by
Timestamp, then by Trade ID") and by the spec: lexicographic on
`(timestamp, trade_id)`. -/
def tradeLtSpec (a b : Trade) : Prop :=
  a.timestamp < b.timestamp ∨ (a.timestamp = b.timestamp ∧ a.trade_id < b.trade_id)

/-- C5 (code bug): two records `a` (trade_id 2, timestamp 1) and `b`
(trade_id 1, timestamp 2), equal in all other fields.  The documented
(timestamp, trade_id) order puts `a` before `b`, but the defaulted
`operator<=>` compares `trade_id` first and yields `a > b`. -/
theorem trade_order_contradicts_comment :
    tradeCmp
      { trade_id := 2, order_id := 0, timestamp := 1, price := 10, volume := 1,
        symbol := "AAA", exchange := "NSE", side := 'B', type := 'L', is_pro := false }
      { trade_id := 1, order_id := 0, timestamp := 2, price := 10, volume := 1,
        symbol := "AAA", exchange := "NSE", side := 'B', type := 'L', is_pro := false }
      = Ordering.gt ∧
    tradeLtSpec
      { trade_id := 2, order_id := 0, timestamp := 1, price := 10, volume := 1,
        symbol := "AAA", exchange := "NSE", side := 'B', type := 'L', is_pro := false }
      { trade_id := 1, order_id := 0, timestamp := 2, price := 10, volume := 1,
        symbol := "AAA", exchange := "NSE", side := 'B', type := 'L', is_pro := false } := by
  constructor
  · rfl
  · left; decide

/-!
Technical indicators (`TechnicalIndicators.hpp`)
-/

/-- Embeds `TechnicalIndicators::compute_sma`: arithmetic mean of the last
`period` prices (`std::accumulate(prices.end() - period, prices.end(),
0.0) / period`). -/
def compute_sma (prices : List ℚ) (period : Int) : ℚ :=
  if prices.isEmpty ∨ period ≤ 0 then 0
  else (prices.drop (prices.length - period.toNat)).sum / (period : ℚ)

/-- The gains accumulated by the `compute_rsi` loop, walking the
window with the previous price in hand (`change = prices[i] -
prices[i-1]`, `if (change > 0.0) avg_gain += change`). -/
def gainsOf : ℚ → List ℚ → ℚ
  | _, [] => 0
  | prev, x :: rest => (if x - prev > 0 then x - prev else 0) + gainsOf x rest

/-- The losses accumulated by the loop (`else avg_loss += (-change)`). -/
def lossesOf : ℚ → List ℚ → ℚ
  | _, [] => 0
  | prev, x :: rest => (if x - prev > 0 then 0 else -(x - prev)) + lossesOf x rest

/-- Sum of the positive consecutive differences of a price window. -/
def sumGains : List ℚ → ℚ
  | [] => 0
  | a :: rest => gainsOf a rest

/-- Sum of the negated non-positive consecutive differences. -/
def sumLosses : List ℚ → ℚ
  | [] => 0
  | a :: rest => lossesOf a rest

/-- Number of consecutive differences in a window (the loop `count`). -/
def diffCount : List ℚ → Nat
  | [] => 0
  | _ :: rest => rest.length

/-- Embeds `TechnicalIndicators::compute_rsi`: the guard `prices.size() < 2 ||
period <= 1` returns the neutral 50; otherwise the loop from
`start_idx + 1` computes the consecutive differences of the suffix of
`prices` starting at `start_idx = max((int)size - period - 1, 0)`
(Int.toNat performs exactly this clamp). -/
def compute_rsi (prices : List ℚ) (period : Int) : ℚ :=
  if prices.length < 2 ∨ period ≤ 1 then 50
  else
    let window := prices.drop (((prices.length : Int) - period - 1).toNat)
    let count := diffCount window
    if count = 0 then 50
    else
      let avg_gain := sumGains window / (count : ℚ)
      let avg_loss := sumLosses window / (count : ℚ)
      if avg_loss = 0 then 100
      else 100 - 100 / (1 + avg_gain / avg_loss)

/-- The RSI as worded by the spec (§4.5): consecutive differences over
the last `p + 1` prices (fewer if unavailable); gains and losses
averaged over the difference count; 50.0 if the difference count is 0,
100.0 if `avg_loss == 0`, else `100 - 100/(1 + avg_gain/avg_loss)`.
Stated as a second definition for the refinement comparison with
`compute_rsi`. -/
def rsiSpec (prices : List ℚ) (p : Nat) : ℚ :=
  let window := prices.drop (prices.length - (p + 1))
  let count := diffCount window
  if count = 0 then 50
  else
    let avg_gain := sumGains window / (count : ℚ)
    let avg_loss := sumLosses window / (count : ℚ)
    if avg_loss = 0 then 100
    else 100 - 100 / (1 + avg_gain / avg_loss)

/-- Embeds `TechnicalIndicators::compute_vwap`: `Σ price·volume / Σ volume`
over all records of the symbol (the index loop is modelled by zipping
the two equal-length columns). -/
def compute_vwap (prices : List ℚ) (volumes : List Nat) : ℚ :=
  if prices.isEmpty then 0
  else
    let total_value := ((prices.zip volumes).map (fun pv => pv.1 * (pv.2 : ℚ))).sum
    let total_volume := ((prices.zip volumes).map (fun pv => ((pv.2 : ℚ)))).sum
    if total_volume = 0 then 0 else total_value / total_volume

theorem diffCount_eq (l : List ℚ) : diffCount l = l.length - 1 := by
  cases l with
  | nil => rfl
  | cons a tail => simp [diffCount]

/-- C4 counterexample: for prices `[100, 102]` and effective window
`p = 1` the difference count is 1 (not 0), yet `compute_rsi` returns
the neutral 50.0 while the spec definition yields 100.0. -/
theorem compute_rsi_period_one_counterexample :
    compute_rsi [100, 102] 1 = 50 ∧ rsiSpec [100, 102] 1 = 100 ∧
    diffCount [(100 : ℚ), 102] = 1 := by
  refine ⟨rfl, ?_, rfl⟩
  norm_num [rsiSpec, diffCount, sumGains, gainsOf, sumLosses, lossesOf]

/-- C4 (amended): for every effective window `p ≥ 2` the computed RSI
equals the spec definition (for `p ≤ 1` the code returns 50.0
unconditionally); in particular prices `[100, 102, 101, 103, 105]`
with period 4 give `100 - 100/7`. -/
theorem compute_rsi_eq_rsiSpec :
    (∀ (prices : List ℚ) (period : Int), 2 ≤ period →
      compute_rsi prices period = rsiSpec prices period.toNat) ∧
    compute_rsi [100, 102, 101, 103, 105] 4 = 100 - 100 / 7 := by
  constructor
  · intro prices period hp
    have hw : (((prices.length : Int) - period - 1).toNat)
        = prices.length - (period.toNat + 1) := by omega
    by_cases hn : prices.length < 2
    · have h0 : prices.length - (period.toNat + 1) = 0 := by omega
      have hcount : diffCount prices = 0 := by
        rw [diffCount_eq]; omega
      simp [compute_rsi, rsiSpec, h0, hcount, hn]
    · have hguard : ¬(prices.length < 2 ∨ period ≤ 1) := by
        push_neg
        exact ⟨by omega, by omega⟩
      simp only [compute_rsi, rsiSpec, hw, if_neg hguard]
  · norm_num [compute_rsi, diffCount, sumGains, gainsOf, sumLosses, lossesOf]

/-- Witness for the general part of `compute_rsi_eq_rsiSpec` at the
concrete input `[100, 102]`, period 2. -/
theorem compute_rsi_eq_rsiSpec_witness :
    compute_rsi [100, 102] 2 = rsiSpec [100, 102] (2 : Int).toNat :=
  compute_rsi_eq_rsiSpec.1 [100, 102] 2 (by norm_num)

/-!
Grouping and `compute_all`

`compute_all` groups the input by symbol into two per-symbol columns
(`prices_by_symbol`, `volumes_by_symbol`), appending in input order.
`unordered_map` iteration order is unspecified; the model fixes
first-insertion order — every property proved below is independent of
the iteration order.
-/

/-- One grouping step:
`prices_by_symbol[t.symbol].push_back(t.price)` and
`volumes_by_symbol[t.symbol].push_back(t.volume)`. -/
def addTrade (acc : List (String × List ℚ × List Nat)) (t : Trade) :
    List (String × List ℚ × List Nat) :=
  match acc with
  | [] => [(t.symbol, [t.price], [t.volume])]
  | (s, ps, vs) :: rest =>
    if s = t.symbol then (s, ps ++ [t.price], vs ++ [t.volume]) :: rest
    else (s, ps, vs) :: addTrade rest t

/-- The grouping loop of `compute_all` (STEP 1). -/
def groupTrades (trades : List Trade) : List (String × List ℚ × List Nat) :=
  trades.foldl addTrade []

/-- Embeds `TechnicalIndicators::compute_all`: early return on empty input,
then one `IndicatorResult` per grouped symbol with
`effective_period = min(period, (int)prices.size())`. -/
def compute_all (trades : List Trade) (period : Int) : List IndicatorResult :=
  if trades.isEmpty then []
  else (groupTrades trades).map (fun e =>
    { symbol := e.1,
      sma := compute_sma e.2.1 (min period (e.2.1.length : Int)),
      rsi := compute_rsi e.2.1 (min period (e.2.1.length : Int)),
      vwap := compute_vwap e.2.1 e.2.2,
      period := min period (e.2.1.length : Int) })

/-- Keys (symbols) of the grouping accumulator. -/
def symKeys (acc : List (String × List ℚ × List Nat)) : List String :=
  acc.map (fun e => e.1)

/-- Lookup of a symbol's columns in the accumulator. -/
def lookupSym : List (String × List ℚ × List Nat) → String → Option (List ℚ × List Nat)
  | [], _ => none
  | (s, ps, vs) :: rest, x => if s = x then some (ps, vs) else lookupSym rest x

/-- Price column a symbol receives from a run of the grouping loop. -/
def prOf (l : List Trade) (x : String) : List ℚ :=
  (l.filter (fun t => t.symbol = x)).map (fun t => t.price)

/-- Volume column a symbol receives from a run of the grouping loop. -/
def voOf (l : List Trade) (x : String) : List Nat :=
  (l.filter (fun t => t.symbol = x)).map (fun t => t.volume)

theorem symKeys_addTrade (acc : List (String × List ℚ × List Nat)) (t : Trade) :
    symKeys (addTrade acc t) =
      if t.symbol ∈ symKeys acc then symKeys acc else symKeys acc ++ [t.symbol] := by
  induction acc with
  | nil => simp [addTrade, symKeys]
  | cons e rest ih =>
    obtain ⟨s, ps, vs⟩ := e
    by_cases h : s = t.symbol
    · have hmem : t.symbol ∈ symKeys ((s, ps, vs) :: rest) := by
        simp [symKeys, h.symm]
      simp [addTrade, h, symKeys, hmem]
    · have hmem : (t.symbol ∈ symKeys ((s, ps, vs) :: rest)) ↔ t.symbol ∈ symKeys rest := by
        simp only [symKeys, List.map_cons, List.mem_cons]
        constructor
        · rintro (h1 | h1)
          · exact absurd h1.symm h
          · exact h1
        · exact Or.inr
      have hstep : addTrade ((s, ps, vs) :: rest) t = (s, ps, vs) :: addTrade rest t := by
        simp [addTrade, h]
      have hcons : ∀ l : List (String × List ℚ × List Nat),
          symKeys ((s, ps, vs) :: l) = s :: symKeys l := fun l => rfl
      by_cases hm : t.symbol ∈ symKeys rest
      · rw [if_pos (hmem.mpr hm), hstep, hcons, hcons, ih, if_pos hm]
      · rw [if_neg (fun hx => hm (hmem.mp hx)), hstep, hcons, hcons, ih, if_neg hm,
          List.cons_append]

theorem symKeys_nodup_addTrade (acc : List (String × List ℚ × List Nat)) (t : Trade)
    (h : (symKeys acc).Nodup) : (symKeys (addTrade acc t)).Nodup := by
  rw [symKeys_addTrade]
  split
  · exact h
  · next hmem => simp [List.nodup_append, h, hmem]

theorem mem_symKeys_addTrade (acc : List (String × List ℚ × List Nat)) (t : Trade)
    (x : String) :
    x ∈ symKeys (addTrade acc t) ↔ x ∈ symKeys acc ∨ x = t.symbol := by
  rw [symKeys_addTrade]
  split
  · next hmem =>
    constructor
    · exact Or.inl
    · rintro (h | rfl)
      · exact h
      · exact hmem
  · simp

theorem symKeys_foldl_nodup :
    ∀ (l : List Trade) (acc : List (String × List ℚ × List Nat)),
      (symKeys acc).Nodup → (symKeys (l.foldl addTrade acc)).Nodup := by
  intro l
  induction l with
  | nil => intro acc h; exact h
  | cons t l ih => intro acc h; exact ih _ (symKeys_nodup_addTrade acc t h)

theorem mem_symKeys_foldl :
    ∀ (l : List Trade) (acc : List (String × List ℚ × List Nat)) (x : String),
      x ∈ symKeys (l.foldl addTrade acc) ↔
        x ∈ symKeys acc ∨ x ∈ l.map (fun t => t.symbol) := by
  intro l
  induction l with
  | nil => intro acc x; simp
  | cons t l ih =>
    intro acc x
    rw [List.foldl_cons, ih, mem_symKeys_addTrade]
    simp only [List.map_cons, List.mem_cons]
    tauto

theorem lookupSym_addTrade_self (acc : List (String × List ℚ × List Nat)) (t : Trade) :
    lookupSym (addTrade acc t) t.symbol =
      some (match lookupSym acc t.symbol with
            | some pv => (pv.1 ++ [t.price], pv.2 ++ [t.volume])
            | none => ([t.price], [t.volume])) := by
  induction acc with
  | nil => simp [addTrade, lookupSym]
  | cons e rest ih =>
    obtain ⟨s, ps, vs⟩ := e
    by_cases h : s = t.symbol
    · simp [addTrade, lookupSym, h]
    · simp [addTrade, lookupSym, h, ih]

theorem lookupSym_addTrade_other (acc : List (String × List ℚ × List Nat)) (t : Trade)
    (x : String) (hx : x ≠ t.symbol) :
    lookupSym (addTrade acc t) x = lookupSym acc x := by
  induction acc with
  | nil => simp [addTrade, lookupSym, Ne.symm hx]
  | cons e rest ih =>
    obtain ⟨s, ps, vs⟩ := e
    by_cases h : s = t.symbol
    · subst h
      simp [addTrade, lookupSym, Ne.symm hx]
    · simp [addTrade, lookupSym, h, ih]

theorem lookupSym_foldl :
    ∀ (l : List Trade) (acc : List (String × List ℚ × List Nat)) (x : String),
      lookupSym (l.foldl addTrade acc) x =
        match lookupSym acc x with
        | some pv => some (pv.1 ++ prOf l x, pv.2 ++ voOf l x)
        | none => if prOf l x = [] then none else some (prOf l x, voOf l x) := by
  intro l
  induction l with
  | nil =>
    intro acc x
    cases h : lookupSym acc x <;> simp [prOf, voOf, h]
  | cons t l ih =>
    intro acc x
    rw [List.foldl_cons, ih]
    by_cases hx : x = t.symbol
    · subst hx
      rw [lookupSym_addTrade_self]
      have hpr : prOf (t :: l) t.symbol = t.price :: prOf l t.symbol := by
        simp [prOf, List.filter_cons]
      have hvo : voOf (t :: l) t.symbol = t.volume :: voOf l t.symbol := by
        simp [voOf, List.filter_cons]
      cases hacc : lookupSym acc t.symbol with
      | some pv => simp [hacc, hpr, hvo, List.append_assoc]
      | none => simp [hacc, hpr, hvo]
    · rw [lookupSym_addTrade_other acc t x hx]
      have hpr : prOf (t :: l) x = prOf l x := by
        simp [prOf, List.filter_cons, Ne.symm hx]
      have hvo : voOf (t :: l) x = voOf l x := by
        simp [voOf, List.filter_cons, Ne.symm hx]
      rw [hpr, hvo]

theorem lookupSym_of_mem :
    ∀ (acc : List (String × List ℚ × List Nat)), (symKeys acc).Nodup →
      ∀ e ∈ acc, lookupSym acc e.1 = some e.2 := by
  intro acc
  induction acc with
  | nil => intro _ e he; cases he
  | cons f rest ih =>
    intro hnd e he
    obtain ⟨s, ps, vs⟩ := f
    have hnd' : (symKeys rest).Nodup ∧ s ∉ symKeys rest := by
      have := hnd
      simp only [symKeys, List.map_cons, List.nodup_cons] at this
      exact ⟨this.2, this.1⟩
    rcases List.mem_cons.mp he with he | he
    · subst he
      simp [lookupSym]
    · have hs : ¬ (s = e.1) := by
        intro hcontr
        have hmem : e.1 ∈ symKeys rest := List.mem_map_of_mem _ he
        rw [← hcontr] at hmem
        exact hnd'.2 hmem
      simp only [lookupSym, if_neg hs]
      exact ih hnd'.1 e he

theorem gainsOf_nonneg (prev : ℚ) (l : List ℚ) : 0 ≤ gainsOf prev l := by
  induction l generalizing prev with
  | nil => exact le_refl 0
  | cons x rest ih =>
    refine add_nonneg ?_ (ih x)
    split
    · next h => linarith
    · exact le_refl 0

theorem lossesOf_nonneg (prev : ℚ) (l : List ℚ) : 0 ≤ lossesOf prev l := by
  induction l generalizing prev with
  | nil => exact le_refl 0
  | cons x rest ih =>
    refine add_nonneg ?_ (ih x)
    split
    · exact le_refl 0
    · next h => push_neg at h; linarith

theorem sumGains_nonneg (l : List ℚ) : 0 ≤ sumGains l := by
  cases l with
  | nil => exact le_refl 0
  | cons a rest => exact gainsOf_nonneg a rest

theorem sumLosses_nonneg (l : List ℚ) : 0 ≤ sumLosses l := by
  cases l with
  | nil => exact le_refl 0
  | cons a rest => exact lossesOf_nonneg a rest

/-- The computed RSI always lies in `[0, 100]`, for any prices and any
period. -/
theorem compute_rsi_bounds (prices : List ℚ) (period : Int) :
    0 ≤ compute_rsi prices period ∧ compute_rsi prices period ≤ 100 := by
  simp only [compute_rsi]
  split
  · norm_num
  · set w := prices.drop (((prices.length : Int) - period - 1).toNat) with hwdef
    by_cases hc : diffCount w = 0
    · rw [if_pos hc]; norm_num
    · rw [if_neg hc]
      by_cases hl : sumLosses w / (diffCount w : ℚ) = 0
      · rw [if_pos hl]; norm_num
      · rw [if_neg hl]
        have hcq : (0 : ℚ) < (diffCount w : ℚ) := by
          exact_mod_cast Nat.pos_of_ne_zero hc
        have hg : 0 ≤ sumGains w / (diffCount w : ℚ) :=
          div_nonneg (sumGains_nonneg w) (le_of_lt hcq)
        have hl0 : 0 ≤ sumLosses w / (diffCount w : ℚ) :=
          div_nonneg (sumLosses_nonneg w) (le_of_lt hcq)
        have hlpos : 0 < sumLosses w / (diffCount w : ℚ) := lt_of_le_of_ne hl0 (Ne.symm hl)
        have hrs0 : 0 ≤ sumGains w / (diffCount w : ℚ) / (sumLosses w / (diffCount w : ℚ)) :=
          div_nonneg hg hl0
        have h1 : (0 : ℚ) < 1 + sumGains w / (diffCount w : ℚ) / (sumLosses w / (diffCount w : ℚ)) := by
          linarith
        have hdivpos : 0 < 100 / (1 + sumGains w / (diffCount w : ℚ) / (sumLosses w / (diffCount w : ℚ))) := by
          positivity
        have hdivle : 100 / (1 + sumGains w / (diffCount w : ℚ) / (sumLosses w / (diffCount w : ℚ))) ≤ 100 := by
          apply div_le_self (by norm_num)
          linarith
        constructor <;> linarith

/-- The function `compute_vwap` is positive on a non-empty symbol group whose
prices and volumes are all positive. -/
theorem compute_vwap_pos (prices : List ℚ) (volumes : List Nat)
    (hne : prices ≠ []) (hlen : prices.length = volumes.length)
    (hp : ∀ p ∈ prices, 0 < p) (hv : ∀ v ∈ volumes, 0 < v) :
    0 < compute_vwap prices volumes := by
  simp only [compute_vwap]
  rw [if_neg (by simpa [List.isEmpty_iff] using hne)]
  have hzip_ne : prices.zip volumes ≠ [] := by
    cases prices with
    | nil => exact absurd rfl hne
    | cons p ps =>
      cases volumes with
      | nil => simp at hlen
      | cons v vs => simp
  have hvolpos : 0 < ((prices.zip volumes).map (fun pv => ((pv.2 : ℚ)))).sum := by
    apply List.sum_pos
    · intro x hx
      obtain ⟨pv, hpv, rfl⟩ := List.mem_map.mp hx
      have hmem := (List.of_mem_zip hpv).2
      exact_mod_cast hv _ hmem
    · simpa using hzip_ne
  have hvalpos : 0 < ((prices.zip volumes).map (fun pv => pv.1 * (pv.2 : ℚ))).sum := by
    apply List.sum_pos
    · intro x hx
      obtain ⟨pv, hpv, rfl⟩ := List.mem_map.mp hx
      have h1 := (List.of_mem_zip hpv).1
      have h2 := (List.of_mem_zip hpv).2
      exact mul_pos (hp _ h1) (by exact_mod_cast hv _ h2)
    · simpa using hzip_ne
  rw [if_neg (ne_of_gt hvolpos)]
  exact div_pos hvalpos hvolpos

theorem compute_all_eq_map (trades : List Trade) (period : Int) :
    compute_all trades period = (groupTrades trades).map (fun e =>
      { symbol := e.1,
        sma := compute_sma e.2.1 (min period (e.2.1.length : Int)),
        rsi := compute_rsi e.2.1 (min period (e.2.1.length : Int)),
        vwap := compute_vwap e.2.1 e.2.2,
        period := min period (e.2.1.length : Int) }) := by
  rw [compute_all]
  split
  · next h => rw [List.isEmpty_iff.mp h]; rfl
  · rfl

/-- The columns an entry of `groupTrades` holds are exactly the
filtered price/volume columns of its symbol. -/
theorem groupTrades_entry (trades : List Trade) :
    ∀ e ∈ groupTrades trades,
      e.2.1 = prOf trades e.1 ∧ e.2.2 = voOf trades e.1 ∧ prOf trades e.1 ≠ [] := by
  intro e he
  have hnd : (symKeys (groupTrades trades)).Nodup :=
    symKeys_foldl_nodup trades [] (by simp [symKeys])
  have hlk := lookupSym_of_mem _ hnd e he
  have hfold := lookupSym_foldl trades [] e.1
  simp only [lookupSym] at hfold
  rw [groupTrades] at hlk
  rw [hlk] at hfold
  by_cases hem : prOf trades e.1 = []
  · rw [if_pos hem] at hfold; cases hfold
  · rw [if_neg hem] at hfold
    have hpair : e.2 = (prOf trades e.1, voOf trades e.1) :=
      Option.some.inj hfold
    refine ⟨?_, ?_, hem⟩
    · rw [hpair]
    · rw [hpair]

/-- C7: on validator-clean input (positive price and volume for every
record), `compute_all` yields exactly one row per distinct symbol of
the input (no duplicate symbols, and a symbol has a row iff it appears
in the input), and every row satisfies `rsi ∈ [0, 100]`, `vwap > 0`
and `period = min(configured_period, count_for_symbol)`. -/
theorem compute_all_invariants (trades : List Trade) (period : Int)
    (hpos : ∀ t ∈ trades, 0 < t.price ∧ 0 < t.volume) :
    ((compute_all trades period).map (fun r => r.symbol)).Nodup ∧
    (∀ s, s ∈ (compute_all trades period).map (fun r => r.symbol) ↔
        s ∈ trades.map (fun t => t.symbol)) ∧
    (∀ r ∈ compute_all trades period,
      0 ≤ r.rsi ∧ r.rsi ≤ 100 ∧ 0 < r.vwap ∧
      r.period = min period ((trades.filter (fun t => t.symbol = r.symbol)).length : Int)) := by
  have hmapsym : (compute_all trades period).map (fun r => r.symbol)
      = symKeys (groupTrades trades) := by
    rw [compute_all_eq_map, List.map_map]
    rfl
  refine ⟨?_, ?_, ?_⟩
  · rw [hmapsym]
    exact symKeys_foldl_nodup trades [] (by simp [symKeys])
  · intro s
    rw [hmapsym, groupTrades, mem_symKeys_foldl]
    simp [symKeys]
  · intro r hr
    rw [compute_all_eq_map] at hr
    obtain ⟨e, he, rfl⟩ := List.mem_map.mp hr
    obtain ⟨hps, hvs, hnem⟩ := groupTrades_entry trades e he
    have hlen : e.2.1.length = (trades.filter (fun t => t.symbol = e.1)).length := by
      rw [hps]; simp [prOf]
    refine ⟨(compute_rsi_bounds _ _).1, (compute_rsi_bounds _ _).2, ?_, ?_⟩
    · apply compute_vwap_pos
      · rw [hps]; exact hnem
      · rw [hps, hvs]; simp [prOf, voOf]
      · intro p hp
        rw [hps] at hp
        obtain ⟨t, ht, rfl⟩ := List.mem_map.mp hp
        exact (hpos t (List.mem_of_mem_filter ht)).1
      · intro v hvmem
        rw [hvs] at hvmem
        obtain ⟨t, ht, rfl⟩ := List.mem_map.mp hvmem
        exact (hpos t (List.mem_of_mem_filter ht)).2
    · simp only
      rw [hlen]

/-- Witness for `compute_all_invariants` on two concrete records. -/
theorem compute_all_invariants_witness :
    (((compute_all [sampleTrade 1 "AAA", sampleTrade 2 "BBB"] 5).map (fun r => r.symbol)).Nodup) ∧
    (∀ s, s ∈ (compute_all [sampleTrade 1 "AAA", sampleTrade 2 "BBB"] 5).map (fun r => r.symbol) ↔
        s ∈ [sampleTrade 1 "AAA", sampleTrade 2 "BBB"].map (fun t => t.symbol)) ∧
    (∀ r ∈ compute_all [sampleTrade 1 "AAA", sampleTrade 2 "BBB"] 5,
      0 ≤ r.rsi ∧ r.rsi ≤ 100 ∧ 0 < r.vwap ∧
      r.period = min 5 (([sampleTrade 1 "AAA", sampleTrade 2 "BBB"].filter
        (fun t => t.symbol = r.symbol)).length : Int)) :=
  compute_all_invariants [sampleTrade 1 "AAA", sampleTrade 2 "BBB"] 5 (by decide)

/-!
SPSC ring buffer (`SPSCQueue<T, Capacity>`)

The claims exercise the capacity-4 instance `SPSCQueue<T, 4>`.  The
state is the pair of masked indices plus the 4-slot buffer; `try_push`
and `try_pop` follow the source exactly, including the bit-mask wrap
`(i + 1) & MASK` with `MASK = Capacity - 1 = 3`.  The sequential model
is faithful to the single-producer/single-consumer discipline: the
release/acquire ordering of the source makes each operation take
effect atomically in some interleaving, which is exactly a sequential
execution of the two threads' operations.
-/

/-- State of `SPSCQueue<α, 4>`: masked `head_`/`tail_` indices and the slot
array (the cache-line padding has no functional content). -/
structure SPSC4 (α : Type) where
  head : Nat
  tail : Nat
  buffer : List α
deriving Repr

/-- The mask `MASK = Capacity - 1` for `Capacity = 4`. -/
def MASK4 : Nat := 3

/-- A freshly constructed queue: `head_ = tail_ = 0`, slots default
initialised. -/
def emptySPSC4 (α : Type) [Inhabited α] : SPSC4 α :=
  ⟨0, 0, List.replicate 4 default⟩

/-- Embeds `SPSCQueue::try_push`: compute `next_tail = (tail + 1) & MASK`,
reject when `next_tail == head`, otherwise write the slot and publish
the new tail. -/
def try_push {α : Type} (q : SPSC4 α) (item : α) : Bool × SPSC4 α :=
  let next_tail := (q.tail + 1) &&& MASK4
  if next_tail = q.head then (false, q)
  else (true, ⟨q.head, next_tail, q.buffer.set q.tail item⟩)

/-- Embeds `SPSCQueue::try_pop`: empty when `head == tail`, otherwise read the
slot at `head` and publish `head := (head + 1) & MASK`. -/
def try_pop {α : Type} [Inhabited α] (q : SPSC4 α) : Option α × SPSC4 α :=
  if q.head = q.tail then (none, q)
  else (some (q.buffer.getD q.head default), ⟨(q.head + 1) &&& MASK4, q.tail, q.buffer⟩)

/-- Abstract FIFO contents of the ring: the slots from `head`
(inclusive) to `tail` (exclusive), in ring order. -/
def contents {α : Type} [Inhabited α] (q : SPSC4 α) : List α :=
  (List.range ((q.tail + 4 - q.head) % 4)).map
    (fun i => q.buffer.getD ((q.head + i) % 4) default)

/-- Structural invariant: masked indices, 4 slots. -/
def WfSPSC4 {α : Type} (q : SPSC4 α) : Prop :=
  q.head < 4 ∧ q.tail < 4 ∧ q.buffer.length = 4

theorem land3_eq_mod (x : Nat) (h : x < 8) : x &&& MASK4 = x % 4 := by
  interval_cases x <;> rfl

theorem getD_set_same {α : Type} (l : List α) (i : Nat) (v d : α) (h : i < l.length) :
    (l.set i v).getD i d = v := by
  simp [List.getD_eq_getElem?_getD, List.getElem?_set_self', h]

theorem getD_set_other {α : Type} (l : List α) (i j : Nat) (v d : α) (hne : i ≠ j) :
    (l.set i v).getD j d = l.getD j d := by
  simp [List.getD_eq_getElem?_getD, List.getElem?_set_ne hne]

theorem try_push_full {α : Type} [Inhabited α] (q : SPSC4 α) (a : α) (hwf : WfSPSC4 q)
    (hfull : (q.tail + 1) % 4 = q.head) : try_push q a = (false, q) := by
  obtain ⟨h1, h2, h3⟩ := hwf
  unfold try_push
  rw [land3_eq_mod _ (by omega), if_pos hfull]

theorem try_push_ok {α : Type} [Inhabited α] (q : SPSC4 α) (a : α) (hwf : WfSPSC4 q)
    (hok : (q.tail + 1) % 4 ≠ q.head) :
    (try_push q a).1 = true ∧ WfSPSC4 (try_push q a).2 ∧
      contents (try_push q a).2 = contents q ++ [a] := by
  obtain ⟨h1, h2, h3⟩ := hwf
  unfold try_push
  rw [land3_eq_mod _ (by omega), if_neg hok]
  refine ⟨rfl, ⟨by simpa using h1, by simp; omega, by simpa using h3⟩, ?_⟩
  simp only [contents]
  have hlen : ((q.tail + 1) % 4 + 4 - q.head) % 4 = (q.tail + 4 - q.head) % 4 + 1 := by
    omega
  rw [hlen, List.range_succ, List.map_append]
  congr 1
  · apply List.map_congr_left
    intro i hi
    have hi4 : i < (q.tail + 4 - q.head) % 4 := List.mem_range.mp hi
    have hne : q.tail ≠ (q.head + i) % 4 := by omega
    exact getD_set_other _ _ _ _ _ hne
  · have heq : (q.head + (q.tail + 4 - q.head) % 4) % 4 = q.tail := by omega
    simp only [List.map_cons, List.map_nil, heq]
    rw [getD_set_same _ _ _ _ (by omega)]

theorem try_pop_empty {α : Type} [Inhabited α] (q : SPSC4 α)
    (hempty : q.head = q.tail) :
    try_pop q = (none, q) ∧ contents q = [] := by
  constructor
  · unfold try_pop
    rw [if_pos hempty]
  · simp only [contents, hempty]
    have : (q.tail + 4 - q.tail) % 4 = 0 := by omega
    rw [this]
    rfl

theorem try_pop_ok {α : Type} [Inhabited α] (q : SPSC4 α) (hwf : WfSPSC4 q)
    (hne : q.head ≠ q.tail) :
    (try_pop q).1 = some (q.buffer.getD q.head default) ∧ WfSPSC4 (try_pop q).2 ∧
      contents q = q.buffer.getD q.head default :: contents (try_pop q).2 := by
  obtain ⟨h1, h2, h3⟩ := hwf
  unfold try_pop
  rw [if_neg hne]
  rw [land3_eq_mod _ (by omega)]
  refine ⟨rfl, ⟨by simp; omega, by simpa using h2, by simpa using h3⟩, ?_⟩
  simp only [contents]
  have hlen : (q.tail + 4 - q.head) % 4 = (q.tail + 4 - (q.head + 1) % 4) % 4 + 1 := by
    omega
  rw [hlen, List.range_succ_eq_map, List.map_cons, List.map_map]
  congr 1
  · rw [Nat.add_zero, Nat.mod_eq_of_lt h1]
  · apply List.map_congr_left
    intro i hi
    simp only [Function.comp_apply]
    have harith : (q.head + 1) % 4 + i = q.head + 1 + i ∨
        ((q.head + 1) % 4 + i) % 4 = (q.head + (i + 1)) % 4 := by
      right
      omega
    rcases harith with h | h
    · rw [h]
      congr 1
      omega
    · rw [h]

/-- One queue operation performed by the producer (`push`) or the
consumer (`pop`). -/
inductive SpscOp (α : Type) where
  | push (a : α)
  | pop

/-- Run a sequence of operations; returns the final queue, the values
of the successful pushes (in order) and every pop result (in order). -/
def runSPSC4 {α : Type} [Inhabited α] :
    List (SpscOp α) → SPSC4 α → SPSC4 α × List α × List (Option α)
  | [], q => (q, [], [])
  | SpscOp.push a :: ops, q =>
    let r := try_push q a
    let res := runSPSC4 ops r.2
    (res.1, (if r.1 then [a] else []) ++ res.2.1, res.2.2)
  | SpscOp.pop :: ops, q =>
    let r := try_pop q
    let res := runSPSC4 ops r.2
    (res.1, res.2.1, r.1 :: res.2.2)

theorem runSPSC4_fifo_aux {α : Type} [Inhabited α] :
    ∀ (ops : List (SpscOp α)) (q : SPSC4 α), WfSPSC4 q →
      WfSPSC4 (runSPSC4 ops q).1 ∧
      ((runSPSC4 ops q).2.2.filterMap id) ++ contents (runSPSC4 ops q).1
        = contents q ++ (runSPSC4 ops q).2.1 := by
  intro ops
  induction ops with
  | nil => intro q hwf; exact ⟨hwf, by simp [runSPSC4]⟩
  | cons op ops ih =>
    intro q hwf
    cases op with
    | push a =>
      by_cases hfull : (q.tail + 1) % 4 = q.head
      · have hp := try_push_full q a hwf hfull
        simp only [runSPSC4, hp]
        obtain ⟨ih1, ih2⟩ := ih q hwf
        exact ⟨ih1, by simpa using ih2⟩
      · obtain ⟨hp1, hp2, hp3⟩ := try_push_ok q a hwf hfull
        simp only [runSPSC4, hp1]
        obtain ⟨ih1, ih2⟩ := ih (try_push q a).2 hp2
        refine ⟨ih1, ?_⟩
        rw [ih2, hp3]
        simp
    | pop =>
      by_cases hempty : q.head = q.tail
      · obtain ⟨hp, hc⟩ := try_pop_empty q hempty
        simp only [runSPSC4, hp]
        obtain ⟨ih1, ih2⟩ := ih q hwf
        refine ⟨ih1, ?_⟩
        simpa using ih2
      · obtain ⟨hp1, hp2, hp3⟩ := try_pop_ok q hwf hempty
        simp only [runSPSC4]
        obtain ⟨ih1, ih2⟩ := ih (try_pop q).2 hp2
        refine ⟨ih1, ?_⟩
        rw [hp1]
        simp only [List.filterMap_cons, id]
        rw [List.cons_append, ih2, hp3]
        rfl

/-- C6: SPSC FIFO.  General part: from a fresh capacity-4 queue, for
any sequence of operations, the successfully popped values followed by
the remaining ring contents are exactly the successfully pushed values
in order (so once the ring is drained, pops = pushes).  Concrete
parts: pushing 10, 20, 30 succeeds (pushed list `[10, 20, 30]`) and
four pops return 10, 20, 30, then empty; and with 3 items held in the
capacity-4 ring a fourth push fails (pushed list stays `[10, 20, 30]`,
the slot sacrificed to distinguish full from empty). -/
theorem spsc_fifo :
    (∀ ops : List (SpscOp Nat),
      ((runSPSC4 ops (emptySPSC4 Nat)).2.2.filterMap id)
          ++ contents (runSPSC4 ops (emptySPSC4 Nat)).1
        = (runSPSC4 ops (emptySPSC4 Nat)).2.1) ∧
    (runSPSC4 [SpscOp.push 10, SpscOp.push 20, SpscOp.push 30,
        SpscOp.pop, SpscOp.pop, SpscOp.pop, SpscOp.pop] (emptySPSC4 Nat)).2
      = ([10, 20, 30], [some 10, some 20, some 30, none]) ∧
    (runSPSC4 [SpscOp.push 10, SpscOp.push 20, SpscOp.push 30, SpscOp.push 40]
        (emptySPSC4 Nat)).2
      = ([10, 20, 30], []) := by
  refine ⟨?_, by decide, by decide⟩
  intro ops
  have h := (runSPSC4_fifo_aux ops (emptySPSC4 Nat) (by simp [WfSPSC4, emptySPSC4])).2
  have hc : contents (emptySPSC4 Nat) = [] := by
    simp [contents, emptySPSC4]
  rw [hc, List.nil_append] at h
  exact h

/-!
CSV parser (`CsvParser.cpp`)

The file buffer is a `List Char`.  `fieldSplit` and `stripFieldCr`
embed `extract_field`; the numeric fields use `std::from_chars`
semantics: parse the longest digit prefix, leave the zero-initialised
destination untouched when there is no digit or the value is out of
range.  `parseDouble` covers the plain decimal forms
(`digits[.digits]`, optional sign) that the record feed produces.
-/

/-- Digit prefix consumed by `std::from_chars`. -/
def digitsPrefix (cs : List Char) : List Char :=
  cs.takeWhile (fun c => c.isDigit)

/-- Value of a digit string. -/
def natOfDigits (ds : List Char) : Nat :=
  ds.foldl (fun a c => 10 * a + (c.toNat - '0'.toNat)) 0

/-- Embeds `std::from_chars` into an unsigned `w`-bit integer; the destination
keeps its zero on no-digit or out-of-range. -/
def parseUnsigned (w : Nat) (cs : List Char) : Nat :=
  if digitsPrefix cs = [] then 0
  else if natOfDigits (digitsPrefix cs) < 2 ^ w then natOfDigits (digitsPrefix cs) else 0

/-- Embeds `std::from_chars` into a signed `w`-bit integer. -/
def parseSigned (w : Nat) (cs : List Char) : Int :=
  match cs with
  | '-' :: rest =>
    if digitsPrefix rest = [] then 0
    else if (natOfDigits (digitsPrefix rest) : Int) ≤ 2 ^ (w - 1) then
      -(natOfDigits (digitsPrefix rest) : Int)
    else 0
  | _ =>
    if digitsPrefix cs = [] then 0
    else if natOfDigits (digitsPrefix cs) < 2 ^ (w - 1) then
      (natOfDigits (digitsPrefix cs) : Int)
    else 0

/-- Unsigned decimal part `digits[.digits]` of `std::from_chars` for
`double` (exact in ℚ; every finite decimal in the feed round-trips). -/
def parseDecimal (cs : List Char) : ℚ :=
  let intDs := digitsPrefix cs
  match cs.drop intDs.length with
  | '.' :: rest2 =>
    let fracDs := digitsPrefix rest2
    if intDs = [] ∧ fracDs = [] then 0
    else (natOfDigits intDs : ℚ) + (natOfDigits fracDs : ℚ) / ((10 : ℚ) ^ fracDs.length)
  | _ => if intDs = [] then 0 else (natOfDigits intDs : ℚ)

/-- Embeds `std::from_chars` into `double` (decimal forms). -/
def parseDouble (cs : List Char) : ℚ :=
  match cs with
  | '-' :: rest => -(parseDecimal rest)
  | _ => parseDecimal cs

/-- Split at the first comma: `(field-before-comma, rest-after-comma)`;
when no comma remains, the whole remainder is the field and the cursor
becomes empty. -/
def fieldSplit : List Char → List Char × List Char
  | [] => ([], [])
  | c :: rest =>
    if c = ',' then ([], rest)
    else
      let (f, r) := fieldSplit rest
      (c :: f, r)

/-- Strip one trailing CR, as `extract_field` and the line loop do. -/
def stripFieldCr (f : List Char) : List Char :=
  if f.getLast? = some '\r' then f.dropLast else f

/-- Embeds `extract_field`: cut the slice up to the next comma (trailing CR
stripped) and advance the cursor past the comma. -/
def extract_field (remaining : List Char) : List Char × List Char :=
  (stripFieldCr (fieldSplit remaining).1, (fieldSplit remaining).2)

/-- Embeds `CsvParser::parse_line`: fixed column order `trade_id, order_id,
timestamp, symbol, price, volume, side, type, is_pro`; single-byte
fields default to 'N' / 'M' on an empty slice; `is_pro` is `val == 1`;
the `exchange` field stays zero-initialised. -/
def parse_line (line : List Char) : Trade :=
  let s1 := extract_field line
  let s2 := extract_field s1.2
  let s3 := extract_field s2.2
  let s4 := extract_field s3.2
  let s5 := extract_field s4.2
  let s6 := extract_field s5.2
  let s7 := extract_field s6.2
  let s8 := extract_field s7.2
  let s9 := extract_field s8.2
  { trade_id := parseUnsigned 64 s1.1,
    order_id := parseUnsigned 64 s2.1,
    timestamp := parseSigned 64 s3.1,
    symbol := String.mk s4.1,
    price := parseDouble s5.1,
    volume := parseUnsigned 32 s6.1,
    side := match s7.1 with | [] => 'N' | c :: _ => c,
    type := match s8.1 with | [] => 'M' | c :: _ => c,
    is_pro := parseSigned 32 s9.1 = 1,
    exchange := "" }

/-- Split the buffer at the newline boundaries found by the `while`
loop: the complete (newline-terminated) lines, and the trailing
remainder after the last newline. -/
def splitNl : List Char → List (List Char) × List Char
  | [] => ([], [])
  | c :: rest =>
    if c = '\n' then ([] :: (splitNl rest).1, (splitNl rest).2)
    else
      match splitNl rest with
      | (l :: ls, last) => ((c :: l) :: ls, last)
      | ([], last) => ([], c :: last)

/-- The `while` loop body: strip CR, skip empty lines, discard the
first non-empty line as the header (`first_line`), parse the rest. -/
def parseMain : List (List Char) → Bool → List Trade
  | [], _ => []
  | l :: ls, first =>
    let l2 := stripFieldCr l
    if l2 = [] then parseMain ls first
    else if first then parseMain ls false
    else parse_line l2 :: parseMain ls false

/-- The body of `CsvParser::parse` once the buffer is in memory: the
newline loop (with header skip), then the trailing-line handler, which
parses the remainder after the last newline when it is non-empty and
not a bare CR — without consulting the `first_line` flag. -/
def parseContent (content : List Char) : List Trade :=
  let split := splitNl content
  let trades := parseMain split.1 true
  if split.2 ≠ [] ∧ split.2 ≠ ['\r'] then trades ++ [parse_line split.2] else trades

/-- Outcome of the one-shot file read performed by `CsvParser::parse`. -/
inductive FileReadOutcome where
  | openFailed
  | readFailed
  | content (bytes : List Char)

/-- Embeds `CsvParser::parse`: when the file cannot be opened, or reading its
content fails, the function prints a diagnostic on stderr and returns
the (still empty) trades vector; no error value is produced. -/
def parse : FileReadOutcome → List Trade
  | FileReadOutcome.openFailed => []
  | FileReadOutcome.readFailed => []
  | FileReadOutcome.content bytes => parseContent bytes

/-- C9 counterexample: an open failure and a read failure return the
very same value as a successful parse of an empty file — the empty
record list.  No `OpenFailed` / `ReadFailed` error exists in the
return type, so no failure can propagate to the driver. -/
theorem parse_failure_indistinguishable :
    parse FileReadOutcome.openFailed = parse (FileReadOutcome.content []) ∧
    parse FileReadOutcome.readFailed = parse (FileReadOutcome.content []) := by
  constructor <;> rfl

/-- C9 (amended): open and read failures make `parse` return an empty
record list after printing a diagnostic (nothing propagates to the
driver), while a malformed data row is not a parser error: it becomes
a Record with defaulted fields that the Validator rejects. -/
theorem parse_failure_behaviour :
    parse FileReadOutcome.openFailed = [] ∧
    parse FileReadOutcome.readFailed = [] ∧
    parse (FileReadOutcome.content ("h\nbad,row\n".data)) = [parse_line ("bad,row".data)] ∧
    (validate (parse_line ("bad,row".data))).valid = false := by
  refine ⟨rfl, rfl, by decide, by decide⟩

theorem splitNl_no_newline (content : List Char) (h : '\n' ∉ content) :
    splitNl content = ([], content) := by
  induction content with
  | nil => rfl
  | cons c rest ih =>
    have hc : ¬(c = '\n') := fun hcontr => h (hcontr ▸ List.mem_cons_self c rest)
    have hrest : '\n' ∉ rest := fun hmem => h (List.mem_cons_of_mem c hmem)
    simp only [splitNl, if_neg hc, ih hrest]

/-- C10: the header line is discarded only when newline-terminated.
General part: a buffer containing no newline at all is handed, whole,
to the trailing-line handler and parsed as one Record — the header
skip never fires.  Concrete part: a header-only file without a
trailing newline yields exactly one Record whose numeric fields are
all zero (the header words have no digit prefixes), while the same
header followed by a newline yields zero Records. -/
theorem parse_header_no_newline :
    (∀ content : List Char, '\n' ∉ content → content ≠ [] → content ≠ ['\r'] →
      parse (FileReadOutcome.content content) = [parse_line content]) ∧
    (parse (FileReadOutcome.content
        ("trade_id,order_id,timestamp,symbol,price,volume,side,type,is_pro".data))
      = [parse_line ("trade_id,order_id,timestamp,symbol,price,volume,side,type,is_pro".data)] ∧
     (parse_line ("trade_id,order_id,timestamp,symbol,price,volume,side,type,is_pro".data)).trade_id = 0 ∧
     (parse_line ("trade_id,order_id,timestamp,symbol,price,volume,side,type,is_pro".data)).order_id = 0 ∧
     (parse_line ("trade_id,order_id,timestamp,symbol,price,volume,side,type,is_pro".data)).timestamp = 0 ∧
     (parse_line ("trade_id,order_id,timestamp,symbol,price,volume,side,type,is_pro".data)).price = 0 ∧
     (parse_line ("trade_id,order_id,timestamp,symbol,price,volume,side,type,is_pro".data)).volume = 0 ∧
     (parse_line ("trade_id,order_id,timestamp,symbol,price,volume,side,type,is_pro".data)).is_pro = false) ∧
    parse (FileReadOutcome.content
        ("trade_id,order_id,timestamp,symbol,price,volume,side,type,is_pro\n".data))
      = [] := by
  refine ⟨?_, by decide, by decide⟩
  intro content hnl hne hcr
  simp only [parse, parseContent, splitNl_no_newline content hnl, parseMain,
    if_pos (And.intro hne hcr), List.nil_append]

/-- Witness for the general part of `parse_header_no_newline` on the
one-character buffer `"X"`. -/
theorem parse_header_no_newline_witness :
    parse (FileReadOutcome.content ("X".data)) = [parse_line ("X".data)] :=
  parse_header_no_newline.1 ("X".data) (by decide) (by decide) (by decide)
